import Mathlib

/-!
Verification of the student expense tracker (src/expense_tracker.py).

The program keeps an in-memory list of entries (`self.entries`), an optional
session budget (`self.budget`) and a backing CSV file.  We shallowly embed the
data operations: strings are `List Char`, Python floats are modelled as exact
rationals `ℚ`, and a CSV data row is a record of six cell strings.  An
in-memory `Amount` cell is either a string (as produced by `add_entry` /
`save_changes`, which store `f-string` renderings) or a float (as produced by
`read_entries`, which calls `float` on the cell); `PyVal` captures this.
-/

namespace Tracker

/-- One character of the digit range, `chr(48 + d)`. -/
def digitChar (d : ℕ) : Char := Char.ofNat (48 + d)

/-- ASCII digit test (the digits accepted inside a numeric literal). -/
def isDigitC (c : Char) : Bool := 48 ≤ c.toNat && c.toNat ≤ 57

/-- Numeric value of a digit character, `ord(c) - 48`. -/
def digitVal (c : Char) : ℕ := c.toNat - 48

/-- Value of a digit string read left to right (how `float`/`int` accumulate
digits). -/
def digitsVal (cs : List Char) : ℕ := cs.foldl (fun a c => 10 * a + digitVal c) 0

/-- Decimal digit rendering of a natural number, most significant first; the
fuel argument (first) bounds recursion depth and `fuel ≥ n` is always enough. -/
def renderNatAux : ℕ → ℕ → List Char
  | 0, _ => []
  | fuel + 1, n =>
    if n = 0 then [] else renderNatAux fuel (n / 10) ++ [digitChar (n % 10)]

/-- Decimal digit rendering of a natural number (`"0"` for zero). -/
def renderNat (n : ℕ) : List Char := if n = 0 then ['0'] else renderNatAux n n

/-- Model of Python `float(s)` on an unsigned decimal literal: digits with at
most one decimal point, at least one digit overall. -/
def parsePos (cs : List Char) : Option ℚ :=
  let ip := cs.takeWhile isDigitC
  let rest := cs.dropWhile isDigitC
  if rest.isEmpty then
    if ip.isEmpty then none else some (digitsVal ip)
  else if rest.head? = some '.' then
    let fp := rest.tail
    if fp.all isDigitC && !(ip.isEmpty && fp.isEmpty) then
      some ((digitsVal ip : ℚ) + (digitsVal fp : ℚ) / 10 ^ fp.length)
    else none
  else none

/-- Model of Python `float(s)`: optional leading minus sign, then an unsigned
decimal literal.  `none` models the `ValueError` raised on non-numeric input. -/
def parseFloatChars (cs : List Char) : Option ℚ :=
  if cs.head? = some '-' then (parsePos cs.tail).map (fun q => -q)
  else parsePos cs

/-- Number of times `p` divides `d` (fuel-based so the kernel can evaluate it). -/
def vpAux (p : ℕ) : ℕ → ℕ → ℕ
  | 0, _ => 0
  | fuel + 1, d => if 2 ≤ d ∧ p ∣ d then vpAux p fuel (d / p) + 1 else 0

/-- Number of times `p` divides `d`. -/
def vp (p d : ℕ) : ℕ := vpAux p d d

/-- Rendering of a nonnegative in-memory float as Python's `str` would: the
fractional part uses exactly as many digits as the value needs (at least
one), e.g. `50 ↦ "50.0"`, `12.34 ↦ "12.34"`. -/
def renderPosFloat (q : ℚ) : List Char :=
  let n := max 1 (max (vp 2 q.den) (vp 5 q.den))
  let m := (q * 10 ^ n).num.toNat
  let s := renderNat m
  let p := List.replicate (n + 1 - s.length) '0' ++ s
  p.take (p.length - n) ++ '.' :: p.drop (p.length - n)

/-- Model of Python `str` on a float value (as invoked by `csv.DictWriter`
when a row's `Amount` is a float). -/
def pyFloatStr (q : ℚ) : List Char :=
  if q < 0 then '-' :: renderPosFloat (-q) else renderPosFloat q

/-- Python whitespace characters removed by `str.strip()`. -/
def isSpaceC (c : Char) : Bool :=
  c == ' ' || c == '\t' || c == '\n' || c == '\r' || c == '\x0b' || c == '\x0c'

/-- Model of Python `str.strip()`. -/
def trimChars (s : List Char) : List Char :=
  ((s.dropWhile isSpaceC).reverse.dropWhile isSpaceC).reverse

/-- Round to the nearest integer, ties to even (Python's rounding for
string formatting). -/
def roundHalfEven (x : ℚ) : ℤ :=
  if Int.fract x < 1/2 then ⌊x⌋
  else if (1/2 : ℚ) < Int.fract x then ⌊x⌋ + 1
  else if 2 ∣ ⌊x⌋ then ⌊x⌋ else ⌊x⌋ + 1

/-- Model of the Python f-string rendering with two decimal places used for
the stored `Amount` strings in `add_entry` and `save_changes`. -/
def format2 (x : ℚ) : List Char :=
  let m := roundHalfEven (x * 100)
  let s := renderNat m.natAbs
  let p := List.replicate (3 - s.length) '0' ++ s
  (if x < 0 then ['-'] else []) ++ p.take (p.length - 2) ++ '.' :: p.drop (p.length - 2)

/-- The string ends in a point followed by exactly two digits, and contains no
other point: the shape the spec requires of the `Amount` column. -/
def twoDecimals (s : List Char) : Bool :=
  let t := s.drop (s.length - 3)
  t.length == 3 && t.head? == some '.' && (t.drop 1).all isDigitC
    && (s.take (s.length - 3)).all (fun c => !(c == '.'))

/-- An in-memory `Amount` cell: `add_entry`/`save_changes` store formatted
strings, `read_entries` stores the result of `float` on the file cell. -/
inductive PyVal where
  | str (v : List Char)
  | flt (v : ℚ)
deriving DecidableEq

/-- Numeric value of an in-memory `Amount` cell, as computed by the repeated
`float(e['Amount'])` conversions in the source (stored strings always parse,
so the default is never hit on states the program builds). -/
def amtVal : PyVal → ℚ
  | .str v => (parseFloatChars v).getD 0
  | .flt q => q

/-- One in-memory entry dict: keys `ID, Date, Type, Amount, Category, Note`. -/
structure Entry where
  eid : List Char
  date : List Char
  typ : List Char
  amount : PyVal
  category : List Char
  note : List Char
deriving DecidableEq

/-- One data row of the backing CSV file (the header row is fixed and kept
implicit). -/
structure Row where
  cID : List Char
  cDate : List Char
  cType : List Char
  cAmount : List Char
  cCategory : List Char
  cNote : List Char
deriving DecidableEq

/-- How `csv.DictWriter` renders an in-memory `Amount` value into a cell:
strings go through unchanged, floats via `str`. -/
def pyValStr : PyVal → List Char
  | .str v => v
  | .flt q => pyFloatStr q

/-- Rendering of one entry as a CSV data row (the row written by
`append_entry` and by each iteration of `write_entries`). -/
def renderEntry (e : Entry) : Row :=
  ⟨e.eid, e.date, e.typ, pyValStr e.amount, e.category, e.note⟩

/-- Parsing of one CSV data row back into an entry: `read_entries` normalizes
`row['Amount'] = float(row['Amount'])`; a non-numeric cell raises
(`MalformedRecord`), modelled by `none`. -/
def parseRow (r : Row) : Option Entry :=
  (parseFloatChars r.cAmount).map fun q =>
    ⟨r.cID, r.cDate, r.cType, PyVal.flt q, r.cCategory, r.cNote⟩

/-- `read_entries`: parse every data row in file order; the first bad row
aborts the read. -/
def read_entries : List Row → Option (List Entry)
  | [] => some []
  | r :: t =>
    match parseRow r with
    | none => none
    | some e => (read_entries t).map (e :: ·)

/-- `write_entries`: overwrite the file with one row per entry, in order. -/
def write_entries (es : List Entry) : List Row := es.map renderEntry

/-- The `Type` cell value for expenses. -/
def kindExpense : List Char := "Expense".toList

/-- The `Type` cell value for income. -/
def kindIncome : List Char := "Income".toList

/-- The mutable state of the running application: `self.entries`,
`self.budget` and the backing file. -/
structure TrackerState where
  entries : List Entry
  budget : Option ℚ
  file : List Row
deriving DecidableEq

/-- `sum(float(e['Amount']) for e in use if e['Type'] == 'Expense')`. -/
def expenseSum (es : List Entry) : ℚ :=
  ((es.filter (fun e => e.typ == kindExpense)).map (fun e => amtVal e.amount)).sum

/-- `sum(float(e['Amount']) for e in use if e['Type'] == 'Income')`. -/
def incomeSum (es : List Entry) : ℚ :=
  ((es.filter (fun e => e.typ == kindIncome)).map (fun e => amtVal e.amount)).sum

/-- The budget check performed at the end of `add_entry`: only when a budget
is set and the added entry is an expense, warn iff the total expense of the
updated list exceeds the budget. -/
def budgetWarn (budget : Option ℚ) (typ : List Char) (es : List Entry) : Bool :=
  match budget with
  | none => false
  | some b => typ == kindExpense && decide (b < expenseSum es)

/-- Result of `add_entry`: a validation error (message box, no state change)
or the created entry together with the budget-warning flag. -/
inductive AddResult where
  | invalid
  | ok (e : Entry) (warn : Bool)
deriving DecidableEq

/-- `ExpenseTracker.add_entry`: strip inputs, require non-empty category and
amount, parse the amount with `float`, then build the entry, append it to the
file and to memory, and run the budget check.  `freshId` and `now` stand for
`uuid.uuid4()` and the current timestamp. -/
def add_entry (st : TrackerState) (cat amt typ note freshId now : List Char) :
    TrackerState × AddResult :=
  let c := trimChars cat
  let a := trimChars amt
  let nt := trimChars note
  if c.isEmpty || a.isEmpty then (st, .invalid)
  else
    match parseFloatChars a with
    | none => (st, .invalid)
    | some v =>
      let e : Entry := ⟨freshId, now, typ, PyVal.str (format2 v), c, nt⟩
      let entries := st.entries ++ [e]
      (⟨entries, st.budget, st.file ++ [renderEntry e]⟩,
       .ok e (budgetWarn st.budget typ entries))

/-- Result of the edit flow (`_open_edit_window` / `save_changes`). -/
inductive EditResult where
  | notFound
  | invalid
  | ok
deriving DecidableEq

/-- In-place mutation of the first entry whose `ID` matches, as performed by
`save_changes` on the dict found by `next(...)`. -/
def replaceFirst (es : List Entry) (entry_id c : List Char) (v : ℚ)
    (typ nt : List Char) : List Entry :=
  match es with
  | [] => []
  | e :: t =>
    if e.eid == entry_id then
      ⟨e.eid, e.date, typ, PyVal.str (format2 v), c, nt⟩ :: t
    else e :: replaceFirst t entry_id c v typ nt

/-- The edit flow: `_open_edit_window` fails if no entry has the id;
`save_changes` parses the amount (error leaves everything unchanged),
mutates the found entry's Category/Amount/Type/Note in place, and rewrites
the whole file. -/
def save_changes (st : TrackerState) (entry_id cat amt typ note : List Char) :
    TrackerState × EditResult :=
  match st.entries.find? (fun e => e.eid == entry_id) with
  | none => (st, .notFound)
  | some _ =>
    match parseFloatChars (trimChars amt) with
    | none => (st, .invalid)
    | some v =>
      let es := replaceFirst st.entries entry_id (trimChars cat) v typ (trimChars note)
      (⟨es, st.budget, write_entries es⟩, .ok)

/-- `_on_delete_selected` (after confirmation): keep every entry whose `ID`
differs, then rewrite the whole file.  No error is possible. -/
def delete_entry (st : TrackerState) (entry_id : List Char) : TrackerState :=
  let es := st.entries.filter (fun e => !(e.eid == entry_id))
  ⟨es, st.budget, write_entries es⟩

/-- Model of Python `s.startswith(p)`. -/
def startsWithPy : List Char → List Char → Bool
  | _, [] => true
  | [], _ :: _ => false
  | c :: s, d :: p => c == d && startsWithPy s p

/-- `apply_filter` in `_open_month_filter`: an empty (stripped) month string
is an input error; otherwise the view shows the entries whose `Date` starts
with the given string.  `self.entries` is not modified. -/
def apply_filter (st : TrackerState) (month : List Char) :
    TrackerState × Option (List Entry) :=
  let m := trimChars month
  if m.isEmpty then (st, none)
  else (st, some (st.entries.filter (fun e => startsWithPy e.date m)))

/-- The three figures computed by `show_summary`. -/
structure Totals where
  income : ℚ
  expense : ℚ
  balance : ℚ
deriving DecidableEq

/-- `show_summary`'s computation over a list of entries. -/
def totals (es : List Entry) : Totals :=
  ⟨incomeSum es, expenseSum es, incomeSum es - expenseSum es⟩

/-- Componentwise combination of two summaries. -/
def combineTotals (a b : Totals) : Totals :=
  ⟨a.income + b.income, a.expense + b.expense, a.balance + b.balance⟩

/-- Python dict assignment `d[c] = v`: update the value in place if the key
is present (insertion order kept), otherwise append the new key at the end. -/
def dictSet : List (List Char × ℚ) → List Char → ℚ → List (List Char × ℚ)
  | [], c, v => [(c, v)]
  | (k, w) :: t, c, v =>
    if k == c then (k, v) :: t else (k, w) :: dictSet t c v

/-- Python dict lookup returning the stored value when the key is present. -/
def lookupO (al : List (List Char × ℚ)) (c : List Char) : Option ℚ :=
  (al.find? (fun p => p.1 == c)).map (fun p => p.2)

/-- Python `d.get(c, 0)`. -/
def lookupD (al : List (List Char × ℚ)) (c : List Char) : ℚ :=
  (lookupO al c).getD 0

/-- One iteration of the loop in `show_chart`. -/
def chartStep (al : List (List Char × ℚ)) (e : Entry) : List (List Char × ℚ) :=
  if e.typ == kindExpense then
    dictSet al e.category (lookupD al e.category + amtVal e.amount)
  else al

/-- The `categories` dict built by `show_chart`: per-category expense sums. -/
def show_chart_data (es : List Entry) : List (List Char × ℚ) :=
  es.foldl chartStep []

/-- Sum of the amounts of the expense entries of one category. -/
def catExpSum (es : List Entry) (c : List Char) : ℚ :=
  ((es.filter (fun e => e.typ == kindExpense && e.category == c)).map
    (fun e => amtVal e.amount)).sum

theorem startsWithPy_iff (p : List Char) :
    ∀ s : List Char, startsWithPy s p = true ↔ ∃ t, s = p ++ t := by
  induction p with
  | nil => intro s; simp [startsWithPy]
  | cons d p ih =>
    intro s
    cases s with
    | nil => simp [startsWithPy]
    | cons c s =>
      simp only [startsWithPy, Bool.and_eq_true, beq_iff_eq, ih, List.cons_append,
        List.cons.injEq]
      constructor
      · rintro ⟨rfl, t, rfl⟩; exact ⟨t, rfl, rfl⟩
      · rintro ⟨t, rfl, rfl⟩; exact ⟨rfl, t, rfl⟩

/-- Claim C4: `totals` of the empty list is all zeros, `totals` turns list
concatenation into componentwise combination, and the balance is always
income minus expense. -/
theorem c4_totals_homomorphism :
    totals [] = ⟨0, 0, 0⟩ ∧
    (∀ A B : List Entry, totals (A ++ B) = combineTotals (totals A) (totals B)) ∧
    (∀ es : List Entry, (totals es).balance = (totals es).income - (totals es).expense) := by
  refine ⟨by simp [totals, incomeSum, expenseSum], ?_, fun es => rfl⟩
  intro A B
  simp only [totals, combineTotals, incomeSum, expenseSum, List.filter_append,
    List.map_append, List.sum_append, Totals.mk.injEq, true_and, and_true]
  ring

/-- Claim C6: for a non-empty month string, `apply_filter` leaves the state
untouched and returns exactly the subsequence of entries whose `Date` starts
with the given string, in their original order; the result is empty when no
entry matches. -/
theorem c6_filter_by_month (st : TrackerState) (month : List Char)
    (hm : (trimChars month).isEmpty = false) :
    ∃ r, apply_filter st month = (st, some r) ∧
      r.Sublist st.entries ∧
      (∀ e ∈ r, ∃ t, e.date = trimChars month ++ t) ∧
      (∀ e ∈ st.entries, (∃ t, e.date = trimChars month ++ t) → e ∈ r) ∧
      ((∀ e ∈ st.entries, ¬ ∃ t, e.date = trimChars month ++ t) → r = []) := by
  refine ⟨st.entries.filter (fun e => startsWithPy e.date (trimChars month)), ?_, ?_, ?_, ?_, ?_⟩
  · simp [apply_filter, hm]
  · exact List.filter_sublist _
  · intro e he
    rw [List.mem_filter] at he
    exact (startsWithPy_iff _ _).mp he.2
  · intro e he hpre
    exact List.mem_filter.mpr ⟨he, (startsWithPy_iff _ _).mpr hpre⟩
  · intro hnone
    rw [List.filter_eq_nil_iff]
    intro e he
    simp only [Bool.not_eq_true]
    rcases h : startsWithPy e.date (trimChars month) with _ | _
    · rfl
    · exact absurd ((startsWithPy_iff _ _).mp h) (hnone e he)

/-- Witness for C6 at a concrete state and month. -/
theorem c6_filter_by_month_witness :
    ∃ r, apply_filter
        ⟨[⟨"a".toList, "2024-03-05 10:00:00".toList, kindExpense,
            PyVal.str ("50.00".toList), "Food".toList, []⟩], none, []⟩
        ("2024-03".toList) =
      (⟨[⟨"a".toList, "2024-03-05 10:00:00".toList, kindExpense,
            PyVal.str ("50.00".toList), "Food".toList, []⟩], none, []⟩, some r) := by
  obtain ⟨r, h, -⟩ := c6_filter_by_month
    ⟨[⟨"a".toList, "2024-03-05 10:00:00".toList, kindExpense,
        PyVal.str ("50.00".toList), "Food".toList, []⟩], none, []⟩
    ("2024-03".toList) (by decide)
  exact ⟨r, h⟩

theorem add_entry_of_invalid (st : TrackerState) (cat amt typ note fid now : List Char)
    (h : (trimChars cat).isEmpty = true ∨ (trimChars amt).isEmpty = true ∨
      parseFloatChars (trimChars amt) = none) :
    add_entry st cat amt typ note fid now = (st, .invalid) := by
  unfold add_entry
  rcases h with h | h | h
  · simp [h]
  · simp [h]
  · rcases hc : (trimChars cat).isEmpty with _ | _ <;>
      rcases ha : (trimChars amt).isEmpty with _ | _ <;> simp [hc, ha, h]

/-- Claim C1 (amended): an add whose stripped category or amount is empty, or
whose amount does not parse as a number, fails with a validation error and
changes nothing; but an amount that does parse — even to a negative number —
is accepted together with a non-empty category, and the entry is created. -/
theorem c1_add_validation (st : TrackerState) (cat amt typ note fid now : List Char) :
    (((trimChars cat).isEmpty = true ∨ (trimChars amt).isEmpty = true ∨
        parseFloatChars (trimChars amt) = none) →
      add_entry st cat amt typ note fid now = (st, .invalid)) ∧
    (∀ v, parseFloatChars (trimChars amt) = some v →
      (trimChars cat).isEmpty = false → (trimChars amt).isEmpty = false →
      ∃ e : Entry, e.amount = PyVal.str (format2 v) ∧
        add_entry st cat amt typ note fid now =
          (⟨st.entries ++ [e], st.budget, st.file ++ [renderEntry e]⟩,
           .ok e (budgetWarn st.budget typ (st.entries ++ [e])))) := by
  refine ⟨add_entry_of_invalid st cat amt typ note fid now, ?_⟩
  intro v hv hc ha
  refine ⟨⟨fid, now, typ, PyVal.str (format2 v), trimChars cat, trimChars note⟩, rfl, ?_⟩
  unfold add_entry
  simp [hc, ha, hv]

/-- Witness for C1 at concrete inputs: category `"Food"`, amount `" 12.5 "`. -/
theorem c1_add_validation_witness :
    ∃ e : Entry, e.amount = PyVal.str (format2 (25/2 : ℚ)) ∧
      add_entry ⟨[], none, []⟩ ("Food".toList) (" 12.5 ".toList) kindIncome []
          ("id1".toList) ("2024-03-05 10:00:00".toList) =
        (⟨[e], none, [renderEntry e]⟩, .ok e (budgetWarn none kindIncome [e])) := by
  have hp : parseFloatChars (trimChars (" 12.5 ".toList)) = some (25/2 : ℚ) := by
    simp +decide [trimChars, isSpaceC, parseFloatChars, parsePos, digitsVal, digitVal]
    norm_num
  obtain ⟨e, he, h⟩ := (c1_add_validation ⟨[], none, []⟩ ("Food".toList) (" 12.5 ".toList)
    kindIncome [] ("id1".toList) ("2024-03-05 10:00:00".toList)).2 (25/2 : ℚ) hp
    (by decide) (by decide)
  exact ⟨e, he, h⟩

/-- Counterexample for C1 as stated: the amount string `"-5"` parses to the
negative number `-5`, yet `add_entry` does not fail and the state changes —
the entry is created. -/
theorem c1_counterexample :
    parseFloatChars (trimChars ("-5".toList)) = some (-5) ∧
    (add_entry ⟨[], none, []⟩ ("Food".toList) ("-5".toList) kindExpense []
        ("id1".toList) ("2024-03-05 10:00:00".toList)).2 ≠ AddResult.invalid ∧
    (add_entry ⟨[], none, []⟩ ("Food".toList) ("-5".toList) kindExpense []
        ("id1".toList) ("2024-03-05 10:00:00".toList)).1 ≠ ⟨[], none, []⟩ := by
  have hp : parseFloatChars (trimChars ("-5".toList)) = some (-5) := by
    simp +decide [trimChars, isSpaceC, parseFloatChars, parsePos, digitsVal, digitVal]
  refine ⟨hp, ?_, ?_⟩
  · unfold add_entry
    simp +decide [hp]
  · unfold add_entry
    simp +decide [hp]

theorem replaceFirst_decomp (entry_id c : List Char) (v : ℚ) (typ nt : List Char) :
    ∀ es : List Entry, (∃ e ∈ es, e.eid = entry_id) →
      ∃ l1 e l2, es = l1 ++ e :: l2 ∧ (∀ x ∈ l1, x.eid ≠ entry_id) ∧ e.eid = entry_id ∧
        replaceFirst es entry_id c v typ nt =
          l1 ++ (⟨e.eid, e.date, typ, PyVal.str (format2 v), c, nt⟩ : Entry) :: l2 := by
  intro es
  induction es with
  | nil => rintro ⟨e, he, -⟩; exact absurd he (List.not_mem_nil e)
  | cons a t ih =>
    intro hex
    by_cases ha : a.eid = entry_id
    · refine ⟨[], a, t, rfl, by simp, ha, ?_⟩
      simp [replaceFirst, ha]
    · have hex' : ∃ e ∈ t, e.eid = entry_id := by
        rcases hex with ⟨e, he, heid⟩
        rcases List.mem_cons.mp he with rfl | he'
        · exact absurd heid ha
        · exact ⟨e, he', heid⟩
      obtain ⟨l1, e, l2, ht, hl1, heid, hrep⟩ := ih hex'
      refine ⟨a :: l1, e, l2, by rw [ht]; rfl, ?_, heid, ?_⟩
      · intro x hx
        rcases List.mem_cons.mp hx with rfl | hx'
        · exact ha
        · exact hl1 x hx'
      · have hne : (a.eid == entry_id) = false := beq_eq_false_iff_ne.mpr ha
        simp [replaceFirst, hne, hrep]

theorem save_changes_ok_decomp (st : TrackerState) (entry_id cat amt typ note : List Char)
    (st' : TrackerState) (h : save_changes st entry_id cat amt typ note = (st', .ok)) :
    ∃ v l1 e l2, parseFloatChars (trimChars amt) = some v ∧
      st.entries = l1 ++ e :: l2 ∧ (∀ x ∈ l1, x.eid ≠ entry_id) ∧ e.eid = entry_id ∧
      st'.entries = l1 ++ (⟨e.eid, e.date, typ, PyVal.str (format2 v), trimChars cat,
        trimChars note⟩ : Entry) :: l2 ∧
      st'.budget = st.budget ∧ st'.file = write_entries st'.entries := by
  unfold save_changes at h
  rcases hf : st.entries.find? (fun e => e.eid == entry_id) with _ | f
  · rw [hf] at h; exact absurd (congrArg Prod.snd h) (by simp)
  · rw [hf] at h
    rcases hp : parseFloatChars (trimChars amt) with _ | v
    · rw [hp] at h; exact absurd (congrArg Prod.snd h) (by simp)
    · rw [hp] at h
      have hex : ∃ e ∈ st.entries, e.eid = entry_id := by
        refine ⟨f, List.mem_of_find?_eq_some hf, ?_⟩
        have := List.find?_some hf
        exact beq_iff_eq.mp this
      obtain ⟨l1, e, l2, hsplit, hl1, heid, hrep⟩ :=
        replaceFirst_decomp entry_id (trimChars cat) v typ (trimChars note) st.entries hex
      have hst' : st' = ⟨replaceFirst st.entries entry_id (trimChars cat) v typ (trimChars note),
          st.budget, write_entries (replaceFirst st.entries entry_id (trimChars cat) v typ
          (trimChars note))⟩ := by
        have := congrArg Prod.fst h
        simp at this
        exact this.symm
      refine ⟨v, l1, e, l2, rfl, hsplit, hl1, heid, ?_, ?_, ?_⟩
      · rw [hst', hrep]
      · rw [hst']
      · rw [hst']

/-- Claim C7: a successful edit replaces exactly the first entry carrying the
given id, keeping that entry's `ID` and `Date` and setting its Type, Amount,
Category and Note from the dialog; every other entry is unchanged, in its
original position. -/
theorem c7_edit_frame (st : TrackerState) (entry_id cat amt typ note : List Char)
    (st' : TrackerState) (h : save_changes st entry_id cat amt typ note = (st', .ok)) :
    ∃ v l1 e l2, parseFloatChars (trimChars amt) = some v ∧
      st.entries = l1 ++ e :: l2 ∧ (∀ x ∈ l1, x.eid ≠ entry_id) ∧ e.eid = entry_id ∧
      st'.entries = l1 ++ (⟨e.eid, e.date, typ, PyVal.str (format2 v), trimChars cat,
        trimChars note⟩ : Entry) :: l2 :=
  let ⟨v, l1, e, l2, hv, hs, hl, he, hres, _, _⟩ :=
    save_changes_ok_decomp st entry_id cat amt typ note st' h
  ⟨v, l1, e, l2, hv, hs, hl, he, hres⟩

/-- Witness for C7: editing the only entry of a one-entry ledger. -/
theorem c7_edit_frame_witness :
    ∃ v l1 e l2, parseFloatChars (trimChars ("7.5".toList)) = some v ∧
      ([⟨"a".toList, "d".toList, kindExpense, PyVal.str ("50.00".toList),
          "Food".toList, []⟩] : List Entry) = l1 ++ e :: l2 ∧
      (∀ x ∈ l1, x.eid ≠ "a".toList) ∧ e.eid = "a".toList ∧
      (save_changes ⟨[⟨"a".toList, "d".toList, kindExpense, PyVal.str ("50.00".toList),
          "Food".toList, []⟩], none, []⟩ ("a".toList) ("Books".toList) ("7.5".toList)
          kindIncome []).1.entries =
        l1 ++ (⟨e.eid, e.date, kindIncome, PyVal.str (format2 v), trimChars ("Books".toList),
          trimChars ([] : List Char)⟩ : Entry) :: l2 := by
  have hp : parseFloatChars (trimChars ("7.5".toList)) = some (15/2 : ℚ) := by
    simp +decide [trimChars, isSpaceC, parseFloatChars, parsePos, digitsVal, digitVal]
    norm_num
  have h : save_changes ⟨[⟨"a".toList, "d".toList, kindExpense, PyVal.str ("50.00".toList),
      "Food".toList, []⟩], none, []⟩ ("a".toList) ("Books".toList) ("7.5".toList)
      kindIncome [] =
      (⟨[⟨"a".toList, "d".toList, kindIncome, PyVal.str (format2 (15/2 : ℚ)),
          trimChars ("Books".toList), []⟩], none,
        write_entries [⟨"a".toList, "d".toList, kindIncome, PyVal.str (format2 (15/2 : ℚ)),
          trimChars ("Books".toList), []⟩]⟩, .ok) := by
    unfold save_changes
    rw [hp]
    simp +decide [replaceFirst, trimChars, isSpaceC]
  obtain ⟨v, l1, e, l2, hv, hs, hl, he, hres⟩ :=
    c7_edit_frame _ ("a".toList) ("Books".toList) ("7.5".toList) kindIncome [] _ h
  exact ⟨v, l1, e, l2, hv, hs, hl, he, by rw [h]; exact hres⟩

/-- Claim C2 (amended): `add_entry` rejects an empty category and so preserves
the all-categories-non-empty invariant; but the edit dialog performs no
category validation — a successful edit replaces the target entry's category
with the stripped new value, whatever it is (including the empty string). -/
theorem c2_category_invariant (st : TrackerState)
    (cat amt typ note fid now entry_id : List Char) :
    (∀ st' r, add_entry st cat amt typ note fid now = (st', r) →
      (∀ e ∈ st.entries, e.category ≠ []) → ∀ e ∈ st'.entries, e.category ≠ []) ∧
    (∀ st', save_changes st entry_id cat amt typ note = (st', .ok) →
      ∃ e ∈ st'.entries, e.category = trimChars cat) := by
  constructor
  · intro st' r h hinv e he
    by_cases hca : ((trimChars cat).isEmpty || (trimChars amt).isEmpty) = true
    · unfold add_entry at h
      rw [if_pos hca] at h
      obtain rfl : st' = st := (congrArg Prod.fst h).symm
      exact hinv e he
    · have hca' : ((trimChars cat).isEmpty || (trimChars amt).isEmpty) = false :=
        Bool.not_eq_true _ ▸ (by simpa using hca)
      have hc : (trimChars cat).isEmpty = false := by
        rcases Bool.or_eq_false_iff.mp hca' with ⟨h1, -⟩; exact h1
      rcases hp : parseFloatChars (trimChars amt) with _ | v
      · unfold add_entry at h
        rw [if_neg (by simp [hca']), hp] at h
        obtain rfl : st' = st := (congrArg Prod.fst h).symm
        exact hinv e he
      · unfold add_entry at h
        rw [if_neg (by simp [hca']), hp] at h
        have hst' : st' = ⟨st.entries ++ [⟨fid, now, typ, PyVal.str (format2 v),
            trimChars cat, trimChars note⟩], st.budget,
            st.file ++ [renderEntry ⟨fid, now, typ, PyVal.str (format2 v),
            trimChars cat, trimChars note⟩]⟩ := (congrArg Prod.fst h).symm
        rw [hst'] at he
        rcases List.mem_append.mp he with hold | hnew
        · exact hinv e hold
        · have : e = ⟨fid, now, typ, PyVal.str (format2 v), trimChars cat, trimChars note⟩ := by
            simpa using hnew
          rw [this]
          simpa [List.isEmpty_iff] using hc
  · intro st' h
    obtain ⟨v, l1, e, l2, -, -, -, -, hres, -, -⟩ :=
      save_changes_ok_decomp st entry_id cat amt typ note st' h
    refine ⟨⟨e.eid, e.date, typ, PyVal.str (format2 v), trimChars cat, trimChars note⟩, ?_, rfl⟩
    rw [hres]
    exact List.mem_append.mpr (Or.inr (List.mem_cons_self _ _))

/-- Witness for C2 at a concrete ledger: an add preserving the invariant and
an edit that sets the category to the stripped dialog value. -/
theorem c2_category_invariant_witness :
    (∀ e ∈ (add_entry ⟨[], none, []⟩ ("Food".toList) ("5".toList) kindExpense []
        ("id1".toList) ("d".toList)).1.entries, e.category ≠ []) ∧
    ∃ e ∈ (save_changes ⟨[⟨"a".toList, "d".toList, kindExpense,
        PyVal.str ("50.00".toList), "Food".toList, []⟩], none, []⟩
        ("a".toList) ("Books".toList) ("5".toList) kindExpense []).1.entries,
      e.category = trimChars ("Books".toList) := by
  have hp : parseFloatChars (trimChars ("5".toList)) = some 5 := by
    simp +decide [trimChars, isSpaceC, parseFloatChars, parsePos, digitsVal, digitVal]
  constructor
  · intro e he
    exact (c2_category_invariant ⟨[], none, []⟩ ("Food".toList) ("5".toList) kindExpense []
      ("id1".toList) ("d".toList) ("x".toList)).1 _ _ rfl (by simp) e he
  · have h : save_changes ⟨[⟨"a".toList, "d".toList, kindExpense,
        PyVal.str ("50.00".toList), "Food".toList, []⟩], none, []⟩
        ("a".toList) ("Books".toList) ("5".toList) kindExpense [] =
        (⟨[⟨"a".toList, "d".toList, kindExpense, PyVal.str (format2 5),
            trimChars ("Books".toList), []⟩], none,
          write_entries [⟨"a".toList, "d".toList, kindExpense, PyVal.str (format2 5),
            trimChars ("Books".toList), []⟩]⟩, .ok) := by
      unfold save_changes
      rw [hp]
      simp +decide [replaceFirst, trimChars, isSpaceC]
    obtain ⟨e, he, hcat⟩ := (c2_category_invariant _ ("Books".toList) ("5".toList) kindExpense []
      ("id1".toList) ("d".toList) ("a".toList)).2 _ h
    exact ⟨e, by rw [h]; exact he, hcat⟩

/-- Counterexample for C2 as stated: on a ledger whose only entry has
category `"Food"`, an edit with an empty category input succeeds and leaves
the entry with an empty category. -/
theorem c2_counterexample :
    ((save_changes ⟨[⟨"a".toList, "d".toList, kindExpense, PyVal.str ("50.00".toList),
        "Food".toList, []⟩], none, []⟩ ("a".toList) [] ("5".toList) kindExpense
        []).1.entries.map Entry.category) = [[]] ∧
    (save_changes ⟨[⟨"a".toList, "d".toList, kindExpense, PyVal.str ("50.00".toList),
        "Food".toList, []⟩], none, []⟩ ("a".toList) [] ("5".toList) kindExpense []).2 =
      EditResult.ok := by
  have hp : parseFloatChars (trimChars ("5".toList)) = some 5 := by
    simp +decide [trimChars, isSpaceC, parseFloatChars, parsePos, digitsVal, digitVal]
  constructor
  · unfold save_changes
    rw [hp]
    simp +decide [replaceFirst, trimChars, isSpaceC]
  · unfold save_changes
    rw [hp]
    simp +decide [replaceFirst]

/-- Claim C3: with no budget set, an add never warns; with a budget set, the
warning flag of an accepted add is raised exactly when the entry is an
expense and the total expense of the updated ledger strictly exceeds the
budget (the check runs only inside `add_entry`; `save_changes` and
`delete_entry`, as modelled from the source, produce no warning at all). -/
theorem c3_budget_check (st : TrackerState) (cat amt typ note fid now : List Char)
    (e : Entry) (w : Bool)
    (h : (add_entry st cat amt typ note fid now).2 = .ok e w) :
    (st.budget = none → w = false) ∧
    (∀ b, st.budget = some b →
      (w = true ↔ typ = kindExpense ∧ b < expenseSum (st.entries ++ [e]))) := by
  by_cases hca : ((trimChars cat).isEmpty || (trimChars amt).isEmpty) = true
  · unfold add_entry at h
    rw [if_pos hca] at h
    exact absurd h (by simp)
  · have hca' : ((trimChars cat).isEmpty || (trimChars amt).isEmpty) = false := by
      simpa using hca
    rcases hp : parseFloatChars (trimChars amt) with _ | v
    · unfold add_entry at h
      rw [if_neg (by simp [hca']), hp] at h
      exact absurd h (by simp)
    · unfold add_entry at h
      rw [if_neg (by simp [hca']), hp] at h
      simp only [AddResult.ok.injEq] at h
      obtain ⟨he, hw⟩ := h
      subst he
      constructor
      · intro hb
        rw [← hw, hb, budgetWarn]
      · intro b hb
        rw [← hw, hb, budgetWarn]
        simp [Bool.and_eq_true, beq_iff_eq, decide_eq_true_iff]

/-- Witness for C3: budget 60, adding an expense of 100 raises the warning. -/
theorem c3_budget_check_witness :
    ∃ e w, (add_entry ⟨[], some 60, []⟩ ("Food".toList) ("100".toList) kindExpense []
        ("id1".toList) ("d".toList)).2 = .ok e w ∧
      (w = true ↔ kindExpense = kindExpense ∧ (60 : ℚ) < expenseSum ([] ++ [e])) := by
  have hp : parseFloatChars ['1', '0', '0'] = some 100 := by
    simp +decide [parseFloatChars, parsePos, digitsVal, digitVal]
  have h : (add_entry ⟨[], some 60, []⟩ ("Food".toList) ("100".toList) kindExpense []
      ("id1".toList) ("d".toList)).2 =
      .ok ⟨"id1".toList, "d".toList, kindExpense, PyVal.str (format2 100),
        trimChars ("Food".toList), []⟩
        (budgetWarn (some 60) kindExpense
          [⟨"id1".toList, "d".toList, kindExpense, PyVal.str (format2 100),
            trimChars ("Food".toList), []⟩]) := by
    unfold add_entry
    simp +decide [hp, trimChars, isSpaceC]
  refine ⟨_, _, h, ?_⟩
  have := (c3_budget_check ⟨[], some 60, []⟩ ("Food".toList) ("100".toList) kindExpense []
    ("id1".toList) ("d".toList) _ _ h).2 60 rfl
  simpa using this

theorem read_write_ids (entry_id : List Char) :
    ∀ (l : List Entry) (es' : List Entry), read_entries (write_entries l) = some es' →
      (∀ e ∈ l, e.eid ≠ entry_id) → ∀ e' ∈ es', e'.eid ≠ entry_id := by
  intro l
  induction l with
  | nil =>
    intro es' h _ e' he'
    simp only [write_entries, List.map_nil, read_entries, Option.some.injEq] at h
    subst h
    exact absurd he' (List.not_mem_nil e')
  | cons a t ih =>
    intro es' h hid e' he'
    simp only [write_entries, List.map_cons] at h
    rw [read_entries] at h
    rcases hr : parseRow (renderEntry a) with _ | ea
    · rw [hr] at h; exact absurd h (by simp)
    · rw [hr] at h
      rcases ho : read_entries (List.map renderEntry t) with _ | es''
      · rw [ho] at h; exact absurd h (by simp)
      · rw [ho] at h
        simp only [Option.map_some', Option.some.injEq] at h
        subst h
        rcases List.mem_cons.mp he' with rfl | hmem
        · have hea : e'.eid = a.eid := by
            rcases hq : parseFloatChars (renderEntry a).cAmount with _ | q
            · rw [parseRow, hq] at hr; exact absurd hr (by simp)
            · rw [parseRow, hq] at hr
              simp only [Option.map_some', Option.some.injEq] at hr
              rw [← hr]
              rfl
          rw [hea]
          exact hid a (List.mem_cons_self a t)
        · exact ih es'' (by simpa [write_entries] using ho)
            (fun e he => hid e (List.mem_cons_of_mem _ he)) e' hmem

/-- Claim C10: `delete_entry` removes every entry with the given id and no
other, never errors, always rewrites the whole file (also when nothing
matched, in which case memory is unchanged), is idempotent, and a read of
the rewritten file can never return the deleted id. -/
theorem c10_delete (st : TrackerState) (entry_id : List Char) :
    (∀ e ∈ (delete_entry st entry_id).entries, e.eid ≠ entry_id) ∧
    (∀ e ∈ st.entries, e.eid ≠ entry_id → e ∈ (delete_entry st entry_id).entries) ∧
    (delete_entry st entry_id).file = write_entries (delete_entry st entry_id).entries ∧
    ((∀ e ∈ st.entries, e.eid ≠ entry_id) →
      (delete_entry st entry_id).entries = st.entries ∧
      (delete_entry st entry_id).file = write_entries st.entries) ∧
    delete_entry (delete_entry st entry_id) entry_id = delete_entry st entry_id ∧
    (∀ es', read_entries (delete_entry st entry_id).file = some es' →
      ∀ e' ∈ es', e'.eid ≠ entry_id) := by
  have hkeep : ∀ e ∈ (delete_entry st entry_id).entries, e.eid ≠ entry_id := by
    intro e he
    have := (List.mem_filter.mp he).2
    simpa using this
  have hself : (∀ e ∈ st.entries, e.eid ≠ entry_id) →
      st.entries.filter (fun e => !(e.eid == entry_id)) = st.entries := by
    intro hall
    apply List.filter_eq_self.mpr
    intro e he
    simpa using hall e he
  refine ⟨hkeep, ?_, rfl, ?_, ?_, ?_⟩
  · intro e he hne
    exact List.mem_filter.mpr ⟨he, by simpa using hne⟩
  · intro hall
    exact ⟨hself hall, by rw [delete_entry]; simp only [hself hall]⟩
  · have hff : (st.entries.filter (fun e => !(e.eid == entry_id))).filter
        (fun e => !(e.eid == entry_id)) = st.entries.filter (fun e => !(e.eid == entry_id)) := by
      apply List.filter_eq_self.mpr
      intro e he
      exact (List.mem_filter.mp he).2
    simp only [delete_entry]
    rw [hff]
  · intro es' h e' he'
    exact read_write_ids entry_id (delete_entry st entry_id).entries es' h hkeep e' he'

/-- Witness for C10: deleting id `"a"` from a two-entry ledger, then reading
the rewritten file, never yields id `"a"`. -/
theorem c10_delete_witness :
    ∀ es', read_entries (delete_entry ⟨[⟨"a".toList, "d".toList, kindExpense,
        PyVal.str ("50.00".toList), "Food".toList, []⟩,
      ⟨"b".toList, "d".toList, kindIncome, PyVal.str ("10.00".toList), "Job".toList, []⟩],
      none, []⟩ ("a".toList)).file = some es' → ∀ e' ∈ es', e'.eid ≠ "a".toList := by
  exact (c10_delete ⟨[⟨"a".toList, "d".toList, kindExpense,
      PyVal.str ("50.00".toList), "Food".toList, []⟩,
    ⟨"b".toList, "d".toList, kindIncome, PyVal.str ("10.00".toList), "Job".toList, []⟩],
    none, []⟩ ("a".toList)).2.2.2.2.2

theorem lookupO_dictSet (al : List (List Char × ℚ)) (c c' : List Char) (v : ℚ) :
    lookupO (dictSet al c v) c' = if c = c' then some v else lookupO al c' := by
  induction al with
  | nil =>
    by_cases h : c = c'
    · subst h; simp [dictSet, lookupO]
    · rw [if_neg h]
      simp [dictSet, lookupO, beq_eq_false_iff_ne.mpr h]
  | cons p t ih =>
    obtain ⟨k, w⟩ := p
    by_cases hkc : k = c
    · subst hkc
      by_cases hc' : k = c'
      · subst hc'
        simp [dictSet, lookupO]
      · simp only [dictSet, beq_self_eq_true, if_true]
        rw [if_neg hc']
        simp [lookupO, beq_eq_false_iff_ne.mpr hc']
    · have hkc' : (k == c) = false := beq_eq_false_iff_ne.mpr hkc
      by_cases hk' : k = c'
      · subst hk'
        have hcc' : ¬ c = k := fun h => hkc h.symm
        simp only [dictSet, hkc', Bool.false_eq_true, if_false]
        rw [if_neg hcc']
        simp [lookupO]
      · have hk'' : (k == c') = false := beq_eq_false_iff_ne.mpr hk'
        simp only [dictSet, hkc', Bool.false_eq_true, if_false]
        by_cases hcc' : c = c'
        · subst hcc'
          rw [if_pos rfl]
          simp only [lookupO, List.find?_cons, hk'']
          have := ih
          rw [if_pos rfl] at this
          simpa [lookupO] using this
        · rw [if_neg hcc']
          simp only [lookupO, List.find?_cons, hk'']
          have := ih
          rw [if_neg hcc'] at this
          simpa [lookupO] using this

theorem catExpSum_cons (e : Entry) (t : List Entry) (c : List Char) :
    catExpSum (e :: t) c =
      (if e.typ = kindExpense ∧ e.category = c then amtVal e.amount else 0) + catExpSum t c := by
  by_cases h : e.typ = kindExpense ∧ e.category = c
  · have hb : (e.typ == kindExpense && e.category == c) = true := by
      simp [Bool.and_eq_true, beq_iff_eq, h.1, h.2]
    simp [catExpSum, List.filter_cons, hb, h]
  · have hb : (e.typ == kindExpense && e.category == c) = false := by
      rcases not_and_or.mp h with h' | h' <;> simp [Bool.and_eq_false_iff, beq_eq_false_iff_ne, h']
    simp [catExpSum, List.filter_cons, hb, h]

theorem chart_fold_some (c : List Char) :
    ∀ (es : List Entry) (al : List (List Char × ℚ)) (x : ℚ), lookupO al c = some x →
      lookupO (es.foldl chartStep al) c = some (x + catExpSum es c) := by
  intro es
  induction es with
  | nil => intro al x h; simpa [catExpSum] using h
  | cons e t ih =>
    intro al x h
    rw [List.foldl_cons]
    by_cases hty : e.typ = kindExpense
    · by_cases hcat : e.category = c
      · have hstep : chartStep al e =
            dictSet al c (lookupD al c + amtVal e.amount) := by
          rw [chartStep, if_pos (beq_iff_eq.mpr hty), hcat]
        have hl : lookupO (chartStep al e) c = some (x + amtVal e.amount) := by
          rw [hstep, lookupO_dictSet, if_pos rfl, lookupD, h]
          rfl
        have := ih (chartStep al e) (x + amtVal e.amount) hl
        rw [this, catExpSum_cons, if_pos ⟨hty, hcat⟩]
        congr 1
        ring
      · have hstep : chartStep al e =
            dictSet al e.category (lookupD al e.category + amtVal e.amount) := by
          rw [chartStep, if_pos (beq_iff_eq.mpr hty)]
        have hl : lookupO (chartStep al e) c = some x := by
          rw [hstep, lookupO_dictSet, if_neg hcat, h]
        have := ih (chartStep al e) x hl
        rw [this, catExpSum_cons, if_neg (fun hh => hcat hh.2), zero_add]
    · have hstep : chartStep al e = al := by
        rw [chartStep, if_neg]
        simp [beq_iff_eq, hty]
      rw [hstep, ih al x h, catExpSum_cons, if_neg (fun hh => hty hh.1), zero_add]

theorem chart_fold_none (c : List Char) :
    ∀ (es : List Entry) (al : List (List Char × ℚ)), lookupO al c = none →
      lookupO (es.foldl chartStep al) c =
        (if es.any (fun e => e.typ == kindExpense && e.category == c) then
          some (catExpSum es c) else none) := by
  intro es
  induction es with
  | nil => intro al h; simpa using h
  | cons e t ih =>
    intro al h
    rw [List.foldl_cons]
    by_cases hty : e.typ = kindExpense
    · by_cases hcat : e.category = c
      · have hany : (e :: t).any (fun e => e.typ == kindExpense && e.category == c) = true := by
          simp [List.any_cons, Bool.and_eq_true, beq_iff_eq, hty, hcat]
        have hstep : chartStep al e =
            dictSet al c (lookupD al c + amtVal e.amount) := by
          rw [chartStep, if_pos (beq_iff_eq.mpr hty), hcat]
        have hl : lookupO (chartStep al e) c = some (amtVal e.amount) := by
          rw [hstep, lookupO_dictSet, if_pos rfl, lookupD, h]
          simp
        have hS : catExpSum (e :: t) c = amtVal e.amount + catExpSum t c := by
          rw [catExpSum_cons, if_pos ⟨hty, hcat⟩]
        rw [chart_fold_some c t (chartStep al e) (amtVal e.amount) hl, hany, hS]
        simp
      · have hb : (e.typ == kindExpense && e.category == c) = false := by
          simp [Bool.and_eq_false_iff, beq_eq_false_iff_ne, hcat]
        have hstep : chartStep al e =
            dictSet al e.category (lookupD al e.category + amtVal e.amount) := by
          rw [chartStep, if_pos (beq_iff_eq.mpr hty)]
        have hl : lookupO (chartStep al e) c = none := by
          rw [hstep, lookupO_dictSet, if_neg hcat, h]
        have hS : catExpSum (e :: t) c = catExpSum t c := by
          rw [catExpSum_cons, if_neg (fun hh => hcat hh.2), zero_add]
        rw [ih (chartStep al e) hl, List.any_cons, hb, Bool.false_or, hS]
    · have hb : (e.typ == kindExpense && e.category == c) = false := by
        simp [Bool.and_eq_false_iff, beq_eq_false_iff_ne, hty]
      have hstep : chartStep al e = al := by
        rw [chartStep, if_neg]
        simp [beq_iff_eq, hty]
      have hS : catExpSum (e :: t) c = catExpSum t c := by
        rw [catExpSum_cons, if_neg (fun hh => hty hh.1), zero_add]
      rw [hstep, ih al h, List.any_cons, hb, Bool.false_or, hS]

theorem chart_fold_const :
    ∀ (es : List Entry) (al : List (List Char × ℚ)), (∀ e ∈ es, e.typ ≠ kindExpense) →
      es.foldl chartStep al = al := by
  intro es
  induction es with
  | nil => intro al _; rfl
  | cons e t ih =>
    intro al hne
    rw [List.foldl_cons]
    have hstep : chartStep al e = al := by
      rw [chartStep, if_neg]
      simp [beq_iff_eq, hne e (List.mem_cons_self e t)]
    rw [hstep]
    exact ih al (fun x hx => hne x (List.mem_cons_of_mem _ hx))

/-- Claim C5: in the `show_chart` breakdown, a category's value is exactly the
sum of the amounts of that category's expense entries; a category is present
iff it has at least one expense entry (so income-only categories never
appear); and the breakdown is empty when the list has no expense entries. -/
theorem c5_category_breakdown (es : List Entry) (c : List Char) :
    (∀ t, lookupO (show_chart_data es) c = some t → t = catExpSum es c) ∧
    (lookupO (show_chart_data es) c ≠ none ↔ ∃ e ∈ es, e.typ = kindExpense ∧ e.category = c) ∧
    ((∀ e ∈ es, e.typ ≠ kindExpense) → show_chart_data es = []) := by
  have hbase := chart_fold_none c es [] rfl
  rw [show_chart_data]
  refine ⟨?_, ?_, fun h => chart_fold_const es [] h⟩
  · intro t ht
    rw [hbase] at ht
    rcases hany : es.any (fun e => e.typ == kindExpense && e.category == c) with _ | _
    · rw [hany] at ht; simp at ht
    · rw [hany] at ht
      simp only [if_true] at ht
      exact (Option.some.injEq _ _ ▸ ht).symm
  · rw [hbase]
    rcases hany : es.any (fun e => e.typ == kindExpense && e.category == c) with _ | _
    · simp only [Bool.false_eq_true, if_false, ne_eq, not_true_eq_false, false_iff]
      intro ⟨e, he, h1, h2⟩
      have : es.any (fun e => e.typ == kindExpense && e.category == c) = true := by
        simp only [List.any_eq_true, Bool.and_eq_true, beq_iff_eq]
        exact ⟨e, he, h1, h2⟩
      rw [hany] at this
      exact absurd this (by simp)
    · simp only [if_true, ne_eq, Option.some_ne_none, not_false_iff, true_iff]
      have := List.any_eq_true.mp hany
      obtain ⟨e, he, hb⟩ := this
      rw [Bool.and_eq_true, beq_iff_eq, beq_iff_eq] at hb
      exact ⟨e, he, hb.1, hb.2⟩

/-- Witness for C5: a ledger whose only entry is income produces an empty
breakdown in which no category is present. -/
theorem c5_category_breakdown_witness :
    show_chart_data [⟨"a".toList, "d".toList, kindIncome,
        PyVal.str ("10.00".toList), "Job".toList, []⟩] = [] ∧
    ¬ (lookupO (show_chart_data [⟨"a".toList, "d".toList, kindIncome,
        PyVal.str ("10.00".toList), "Job".toList, []⟩]) ("Job".toList) ≠ none) := by
  constructor
  · exact (c5_category_breakdown _ ("Job".toList)).2.2
      (by intro e he; simp only [List.mem_singleton] at he; subst he; decide)
  · rw [(c5_category_breakdown _ ("Job".toList)).2.1]
    rintro ⟨e, he, h1, -⟩
    simp only [List.mem_singleton] at he
    subst he
    exact absurd h1 (by decide)

theorem digitsVal_foldl (l : List Char) :
    ∀ a0 : ℕ, l.foldl (fun a c => 10 * a + digitVal c) a0 =
      a0 * 10 ^ l.length + digitsVal l := by
  induction l with
  | nil => intro a0; simp [digitsVal]
  | cons c t ih =>
    intro a0
    have h1 : (c :: t).foldl (fun a c => 10 * a + digitVal c) a0 =
        t.foldl (fun a c => 10 * a + digitVal c) (10 * a0 + digitVal c) := rfl
    have h2 : digitsVal (c :: t) =
        t.foldl (fun a c => 10 * a + digitVal c) (digitVal c) := by
      simp [digitsVal]
    rw [h1, ih, h2, ih (digitVal c)]
    simp only [List.length_cons, pow_succ]
    ring

theorem digitsVal_append (a b : List Char) :
    digitsVal (a ++ b) = digitsVal a * 10 ^ b.length + digitsVal b := by
  rw [digitsVal, List.foldl_append, digitsVal_foldl]
  rfl

theorem digitChar_facts : ∀ d : ℕ, d < 10 →
    isDigitC (digitChar d) = true ∧ digitVal (digitChar d) = d := by
  intro d hd
  interval_cases d <;> exact ⟨by decide, by decide⟩

theorem isDigitC_facts (c : Char) (h : isDigitC c = true) :
    digitVal c ≤ 9 ∧ c ≠ '.' ∧ c ≠ '-' := by
  have h' : 48 ≤ c.toNat ∧ c.toNat ≤ 57 := by
    simpa [isDigitC, Bool.and_eq_true, decide_eq_true_iff] using h
  refine ⟨by simp only [digitVal]; omega, ?_, ?_⟩ <;> rintro rfl <;> revert h <;> decide

theorem renderNatAux_zero : ∀ fuel, renderNatAux fuel 0 = [] := by
  intro fuel
  cases fuel <;> rfl

theorem renderNatAux_digits : ∀ fuel n, ∀ c ∈ renderNatAux fuel n, isDigitC c = true := by
  intro fuel
  induction fuel with
  | zero => intro n c hc; exact absurd hc (List.not_mem_nil c)
  | succ f ih =>
    intro n c hc
    rw [renderNatAux] at hc
    by_cases hn : n = 0
    · rw [if_pos hn] at hc; exact absurd hc (List.not_mem_nil c)
    · rw [if_neg hn] at hc
      rcases List.mem_append.mp hc with h | h
      · exact ih (n / 10) c h
      · have : c = digitChar (n % 10) := by simpa using h
        rw [this]
        exact (digitChar_facts (n % 10) (Nat.mod_lt n (by omega))).1

theorem digitsVal_renderNatAux : ∀ fuel n, n ≤ fuel →
    digitsVal (renderNatAux fuel n) = n := by
  intro fuel
  induction fuel with
  | zero =>
    intro n hn
    interval_cases n
    rfl
  | succ f ih =>
    intro n hn
    rw [renderNatAux]
    by_cases hn0 : n = 0
    · rw [if_pos hn0, hn0]; rfl
    · rw [if_neg hn0, digitsVal_append]
      have hd : digitsVal [digitChar (n % 10)] = n % 10 := by
        have := (digitChar_facts (n % 10) (Nat.mod_lt n (by omega))).2
        simp [digitsVal, digitVal] at this ⊢
        exact this
      have hrec : digitsVal (renderNatAux f (n / 10)) = n / 10 := by
        apply ih
        have : n / 10 < n := Nat.div_lt_self (by omega) (by omega)
        omega
      rw [hd, hrec]
      simp only [List.length_singleton, pow_one]
      omega

theorem digitsVal_renderNat (n : ℕ) : digitsVal (renderNat n) = n := by
  rw [renderNat]
  by_cases h : n = 0
  · rw [if_pos h, h]; rfl
  · rw [if_neg h]
    exact digitsVal_renderNatAux n n le_rfl

theorem renderNat_digits (n : ℕ) : ∀ c ∈ renderNat n, isDigitC c = true := by
  rw [renderNat]
  by_cases h : n = 0
  · rw [if_pos h]
    intro c hc
    have : c = '0' := by simpa using hc
    rw [this]; decide
  · rw [if_neg h]
    exact renderNatAux_digits n n

theorem digitsVal_replicate_zero (z : ℕ) :
    digitsVal (List.replicate z '0') = 0 := by
  induction z with
  | zero => rfl
  | succ k ih =>
    rw [List.replicate_succ]
    have : digitsVal ('0' :: List.replicate k '0') =
        digitVal '0' * 10 ^ k + digitsVal (List.replicate k '0') := by
      have h1 : ('0' :: List.replicate k '0') = ['0'] ++ List.replicate k '0' := rfl
      rw [h1, digitsVal_append]
      simp [digitsVal, digitVal]
    rw [this, ih]
    simp [digitVal]

theorem digitsVal_lt (l : List Char) (h : ∀ c ∈ l, isDigitC c = true) :
    digitsVal l < 10 ^ l.length := by
  induction l with
  | nil => decide
  | cons c t ih =>
    have hc := (isDigitC_facts c (h c (List.mem_cons_self c t))).1
    have ht := ih (fun x hx => h x (List.mem_cons_of_mem _ hx))
    have h1 : digitsVal (c :: t) = digitVal c * 10 ^ t.length + digitsVal t := by
      have : (c :: t) = [c] ++ t := rfl
      rw [this, digitsVal_append]
      simp [digitsVal]
    rw [h1, List.length_cons, pow_succ]
    have : digitVal c * 10 ^ t.length + digitsVal t < (digitVal c + 1) * 10 ^ t.length := by
      rw [Nat.add_mul, one_mul]
      omega
    calc digitVal c * 10 ^ t.length + digitsVal t
        < (digitVal c + 1) * 10 ^ t.length := this
      _ ≤ 10 * 10 ^ t.length := Nat.mul_le_mul_right _ (by omega)
      _ = 10 ^ t.length * 10 := by ring

theorem takeWhile_middle (pd : Char → Bool) (x : Char) (hx : pd x = false) :
    ∀ (a b : List Char), (∀ c ∈ a, pd c = true) →
      (a ++ x :: b).takeWhile pd = a ∧ (a ++ x :: b).dropWhile pd = x :: b := by
  intro a
  induction a with
  | nil =>
    intro b _
    constructor
    · simp [List.takeWhile_cons, hx]
    · simp [List.dropWhile_cons, hx]
  | cons c t ih =>
    intro b hall
    have hc : pd c = true := hall c (List.mem_cons_self c t)
    obtain ⟨h1, h2⟩ := ih b (fun y hy => hall y (List.mem_cons_of_mem _ hy))
    constructor
    · simp [List.takeWhile_cons, hc, h1]
    · simp [List.dropWhile_cons, hc, h2]

theorem vpAux_pow_dvd (p : ℕ) (hp : 2 ≤ p) :
    ∀ fuel d, d ≤ fuel → p ^ vpAux p fuel d ∣ d := by
  intro fuel
  induction fuel with
  | zero => intro d _; rw [vpAux]; rw [pow_zero]; exact one_dvd d
  | succ f ih =>
    intro d hd
    rw [vpAux]
    by_cases h : 2 ≤ d ∧ p ∣ d
    · rw [if_pos h]
      have hdp : d / p < d := Nat.div_lt_self (by omega) (by omega)
      have := ih (d / p) (by omega)
      rw [pow_succ']
      have hd' : d = p * (d / p) := (Nat.mul_div_cancel' h.2).symm
      calc p * p ^ vpAux p f (d / p) ∣ p * (d / p) := mul_dvd_mul_left p this
        _ = d := hd'.symm
    · rw [if_neg h]
      rw [pow_zero]
      exact one_dvd d

theorem vpAux_pow_not_dvd (p : ℕ) (hp : 2 ≤ p) :
    ∀ fuel d, d ≤ fuel → 1 ≤ d → ¬ p ^ (vpAux p fuel d + 1) ∣ d := by
  intro fuel
  induction fuel with
  | zero => intro d hd h1; omega
  | succ f ih =>
    intro d hd h1
    rw [vpAux]
    by_cases h : 2 ≤ d ∧ p ∣ d
    · rw [if_pos h]
      intro hdvd
      have hdp : d / p < d := Nat.div_lt_self (by omega) (by omega)
      have hd' : d = p * (d / p) := (Nat.mul_div_cancel' h.2).symm
      have h1' : 1 ≤ d / p := by
        rcases Nat.eq_zero_or_pos (d / p) with h0 | h0
        · rw [h0, Nat.mul_zero] at hd'; omega
        · exact h0
      apply ih (d / p) (by omega) h1'
      have : p ^ (vpAux p f (d / p) + 1 + 1) ∣ p * (d / p) := hd' ▸ hdvd
      rw [pow_succ'] at this
      exact (mul_dvd_mul_iff_left (by omega : p ≠ 0)).mp this
    · rw [if_neg h]
      intro hdvd
      rw [pow_one] at hdvd
      rcases Nat.lt_or_ge d 2 with h2 | h2
      · have : d = 1 := by omega
        rw [this] at hdvd
        have := Nat.le_of_dvd (by omega) hdvd
        omega
      · exact h ⟨h2, hdvd⟩

theorem vp_eq_of (p d k : ℕ) (hp : 2 ≤ p) (hd : 1 ≤ d)
    (h1 : p ^ k ∣ d) (h2 : ¬ p ^ (k + 1) ∣ d) : vp p d = k := by
  have hL1 := vpAux_pow_dvd p hp d d le_rfl
  have hL2 := vpAux_pow_not_dvd p hp d d le_rfl hd
  rw [vp]
  by_contra hne
  rcases Nat.lt_or_ge (vpAux p d d) k with hlt | hge
  · exact hL2 (dvd_trans (pow_dvd_pow p (by omega)) h1)
  · have hgt : k < vpAux p d d := by omega
    exact h2 (dvd_trans (pow_dvd_pow p (by omega)) hL1)

theorem den_dvd_ten_pow (d : ℕ) (hd : 1 ≤ d) (L : ℕ) (h : d ∣ 10 ^ L) :
    d ∣ 10 ^ max 1 (max (vp 2 d) (vp 5 d)) := by
  have h25 : d ∣ 2 ^ L * 5 ^ L := by
    rw [← Nat.mul_pow]
    exact h
  obtain ⟨y, z, hy, hz, hyz⟩ := Nat.dvd_mul.mp h25
  obtain ⟨i, hiL, rfl⟩ := (Nat.dvd_prime_pow Nat.prime_two).mp hy
  obtain ⟨j, hjL, rfl⟩ := (Nat.dvd_prime_pow Nat.prime_five).mp hz
  have hv2 : vp 2 d = i := by
    apply vp_eq_of 2 d i (by omega) hd
    · rw [← hyz]; exact Dvd.intro _ rfl
    · intro hdvd
      rw [← hyz, pow_succ] at hdvd
      have : 2 ∣ 5 ^ j := by
        have h0 : (0 : ℕ) < 2 ^ i := Nat.pos_pow_of_pos i (by omega)
        have := (Nat.mul_dvd_mul_iff_left h0).mp (by
          calc 2 ^ i * 2 ∣ 2 ^ i * 5 ^ j := hdvd
          )
        exact this
      have := Nat.Prime.dvd_of_dvd_pow Nat.prime_two this
      omega
  have hv5 : vp 5 d = j := by
    apply vp_eq_of 5 d j (by omega) hd
    · rw [← hyz]; exact Dvd.intro_left _ rfl
    · intro hdvd
      rw [← hyz, pow_succ] at hdvd
      have hcomm : 2 ^ i * (5 ^ j * 5) = 5 ^ j * 5 * 2 ^ i := by ring
      have : 5 ∣ 2 ^ i := by
        have h0 : (0 : ℕ) < 5 ^ j := Nat.pos_pow_of_pos j (by omega)
        have hdvd' : 5 ^ j * 5 ∣ 5 ^ j * (2 ^ i) := by
          calc 5 ^ j * 5 ∣ 2 ^ i * 5 ^ j := hdvd
            _ = 5 ^ j * 2 ^ i := by ring
        exact (Nat.mul_dvd_mul_iff_left h0).mp hdvd'
      have := Nat.Prime.dvd_of_dvd_pow Nat.prime_five this
      omega
  rw [hv2, hv5, ← hyz]
  have hten : (10 : ℕ) ^ max 1 (max i j) = 2 ^ max 1 (max i j) * 5 ^ max 1 (max i j) := by
    rw [← Nat.mul_pow]
  rw [hten]
  exact Nat.mul_dvd_mul (pow_dvd_pow 2 (by omega)) (pow_dvd_pow 5 (by omega))

theorem num_mul_pow_ten (q : ℚ) (n : ℕ) (hden : q.den ∣ 10 ^ n) :
    ((q * 10 ^ n).num : ℚ) = q * 10 ^ n := by
  have hden0 : ((q.den : ℚ)) ≠ 0 := by
    exact_mod_cast q.den_ne_zero
  have h1 : ((10 ^ n / q.den : ℕ) : ℚ) = ((10 ^ n : ℕ) : ℚ) / (q.den : ℚ) :=
    Nat.cast_div hden hden0
  have hK : ((q.num * (10 ^ n / q.den : ℕ) : ℤ) : ℚ) = q * 10 ^ n := by
    rw [Int.cast_mul, Int.cast_natCast, h1, Nat.cast_pow, Nat.cast_ofNat,
      mul_div_assoc', ← Rat.mul_den_eq_num q]
    field_simp
    rw [mul_right_comm, Rat.mul_den_eq_num]
  rw [← hK, Rat.num_intCast]

theorem parsePos_props (cs : List Char) (q : ℚ) (h : parsePos cs = some q) :
    0 ≤ q ∧ ∃ L, q.den ∣ 10 ^ L := by
  simp only [parsePos] at h
  by_cases h1 : (List.dropWhile isDigitC cs).isEmpty
  · rw [if_pos h1] at h
    by_cases h2 : (List.takeWhile isDigitC cs).isEmpty
    · rw [if_pos h2] at h
      exact absurd h (by simp)
    · rw [if_neg h2] at h
      obtain rfl := (Option.some.inj h).symm
      refine ⟨Nat.cast_nonneg _, 0, ?_⟩
      rw [Rat.den_natCast]
      exact one_dvd _
  · rw [if_neg h1] at h
    by_cases h3 : (List.dropWhile isDigitC cs).head? = some '.'
    · rw [if_pos h3] at h
      by_cases h4 : ((List.dropWhile isDigitC cs).tail.all isDigitC &&
          !((List.takeWhile isDigitC cs).isEmpty &&
            (List.dropWhile isDigitC cs).tail.isEmpty)) = true
      · rw [if_pos h4] at h
        obtain rfl := (Option.some.inj h).symm
        constructor
        · have h10 : (0 : ℚ) < 10 ^ (List.dropWhile isDigitC cs).tail.length := by positivity
          exact add_nonneg (Nat.cast_nonneg _)
            (div_nonneg (Nat.cast_nonneg _) (le_of_lt h10))
        · refine ⟨(List.dropWhile isDigitC cs).tail.length, ?_⟩
          set A := digitsVal (List.takeWhile isDigitC cs) with hA
          set B := digitsVal (List.dropWhile isDigitC cs).tail with hB
          set l := (List.dropWhile isDigitC cs).tail.length with hl
          have hval : (A : ℚ) + (B : ℚ) / 10 ^ l =
              Rat.divInt ((A * 10 ^ l + B : ℕ) : ℤ) ((10 ^ l : ℕ) : ℤ) := by
            rw [Rat.divInt_eq_div]
            have h10 : ((10 : ℚ)) ^ l ≠ 0 := by positivity
            push_cast
            field_simp
          rw [hval]
          have h2 := Rat.den_dvd ((A * 10 ^ l + B : ℕ) : ℤ) ((10 ^ l : ℕ) : ℤ)
          exact_mod_cast h2
      · rw [if_neg h4] at h
        exact absurd h (by simp)
    · rw [if_neg h3] at h
      exact absurd h (by simp)

theorem parseFloatChars_of_digit_head (c : Char) (t : List Char) (hc : isDigitC c = true) :
    parseFloatChars (c :: t) = parsePos (c :: t) := by
  rw [parseFloatChars, if_neg]
  simp only [List.head?_cons, Option.some.injEq]
  intro h
  rw [h] at hc
  exact absurd hc (by decide)

theorem parsePos_layout (ip fp : List Char) (hip : ∀ c ∈ ip, isDigitC c = true)
    (hfp : ∀ c ∈ fp, isDigitC c = true) (hipne : ip ≠ []) (hfpne : fp ≠ []) :
    parsePos (ip ++ '.' :: fp) =
      some ((digitsVal ip : ℚ) + (digitsVal fp : ℚ) / 10 ^ fp.length) := by
  obtain ⟨htake, hdrop⟩ := takeWhile_middle isDigitC '.' (by decide) ip fp hip
  simp only [parsePos, htake, hdrop]
  have hipE : ip.isEmpty = false := by
    cases ip with
    | nil => exact absurd rfl hipne
    | cons a b => rfl
  have hfpE : fp.isEmpty = false := by
    cases fp with
    | nil => exact absurd rfl hfpne
    | cons a b => rfl
  have hall : fp.all isDigitC = true := List.all_eq_true.mpr hfp
  simp [hipE, hfpE, hall]

theorem parsePos_renderPosFloat (q : ℚ) (h0 : 0 ≤ q) (L : ℕ) (hdenL : q.den ∣ 10 ^ L) :
    parsePos (renderPosFloat q) = some q ∧
    ∃ c t, renderPosFloat q = c :: t ∧ isDigitC c = true := by
  obtain ⟨n, hn⟩ : ∃ n, max 1 (max (vp 2 q.den) (vp 5 q.den)) = n := ⟨_, rfl⟩
  have hn1 : 1 ≤ n := by rw [← hn]; exact le_max_left _ _
  have hd10 : q.den ∣ 10 ^ n := by
    rw [← hn]
    exact den_dvd_ten_pow q.den q.pos L hdenL
  have hnum : ((q * 10 ^ n).num : ℚ) = q * 10 ^ n := num_mul_pow_ten q n hd10
  have hposnum : 0 ≤ (q * 10 ^ n).num := by
    rw [Rat.num_nonneg]
    positivity
  have hmq : (((q * 10 ^ n).num.toNat : ℕ) : ℚ) = q * 10 ^ n := by
    rw [← hnum]
    exact_mod_cast congrArg (fun z : ℤ => (z : ℚ)) (Int.toNat_of_nonneg hposnum)
  have hrender : renderPosFloat q =
      (List.replicate (n + 1 - (renderNat (q * 10 ^ n).num.toNat).length) '0' ++
        renderNat (q * 10 ^ n).num.toNat).take
        ((List.replicate (n + 1 - (renderNat (q * 10 ^ n).num.toNat).length) '0' ++
          renderNat (q * 10 ^ n).num.toNat).length - n) ++
      '.' :: (List.replicate (n + 1 - (renderNat (q * 10 ^ n).num.toNat).length) '0' ++
        renderNat (q * 10 ^ n).num.toNat).drop
        ((List.replicate (n + 1 - (renderNat (q * 10 ^ n).num.toNat).length) '0' ++
          renderNat (q * 10 ^ n).num.toNat).length - n) := by
    simp only [renderPosFloat]
    rw [hn]
  set m : ℕ := (q * 10 ^ n).num.toNat with hm
  set p : List Char := List.replicate (n + 1 - (renderNat m).length) '0' ++ renderNat m
    with hpdef
  have hpd : ∀ c ∈ p, isDigitC c = true := by
    intro c hc
    rw [hpdef] at hc
    rcases List.mem_append.mp hc with h | h
    · rw [List.eq_of_mem_replicate h]; decide
    · exact renderNat_digits m c h
  have hpval : digitsVal p = m := by
    rw [hpdef, digitsVal_append, digitsVal_replicate_zero, digitsVal_renderNat,
      zero_mul, zero_add]
  have hplen : n + 1 ≤ p.length := by
    rw [hpdef, List.length_append, List.length_replicate]
    omega
  set k := p.length - n with hk
  have hk1 : 1 ≤ k := by omega
  set ip := p.take k with hip
  set fp := p.drop k with hfp
  have hiplen : ip.length = k := by
    rw [hip, List.length_take]
    omega
  have hfplen : fp.length = n := by
    rw [hfp, List.length_drop]
    omega
  have hipne : ip ≠ [] := by
    intro hnil
    have := congrArg List.length hnil
    rw [hiplen] at this
    simp only [List.length_nil] at this
    omega
  have hfpne : fp ≠ [] := by
    intro hnil
    have := congrArg List.length hnil
    rw [hfplen] at this
    simp only [List.length_nil] at this
    omega
  have hipd : ∀ c ∈ ip, isDigitC c = true := by
    intro c hc
    rw [hip] at hc
    exact hpd c (List.mem_of_mem_take hc)
  have hfpd : ∀ c ∈ fp, isDigitC c = true := by
    intro c hc
    rw [hfp] at hc
    exact hpd c (List.mem_of_mem_drop hc)
  have hsplit : ip ++ fp = p := by
    rw [hip, hfp]
    exact List.take_append_drop k p
  have hvals : digitsVal ip * 10 ^ n + digitsVal fp = m := by
    rw [← hpval, ← hsplit, digitsVal_append, hfplen]
  have hparse := parsePos_layout ip fp hipd hfpd hipne hfpne
  rw [hrender]
  constructor
  · rw [hparse, hfplen, Option.some_inj]
    have h10 : ((10 : ℚ) ^ n) ≠ 0 := by positivity
    have hcast : ((digitsVal ip : ℚ)) * 10 ^ n + (digitsVal fp : ℚ) = (m : ℚ) := by
      exact_mod_cast congrArg (fun z : ℕ => (z : ℚ)) hvals
    have hdivform : ((digitsVal ip : ℚ)) + (digitsVal fp : ℚ) / 10 ^ n =
        (m : ℚ) / 10 ^ n := by
      rw [← hcast]
      field_simp
    rw [hdivform, hmq]
    exact mul_div_cancel_right₀ q h10
  · obtain ⟨c, t, hct⟩ : ∃ c t, ip = c :: t := by
      cases hipc : ip with
      | nil => exact absurd hipc hipne
      | cons c t => exact ⟨c, t, rfl⟩
    refine ⟨c, t ++ '.' :: fp, ?_, hipd c (by rw [hct]; exact List.mem_cons_self c t)⟩
    rw [hct]
    rfl

theorem parseFloatChars_pyFloatStr (q : ℚ) (L : ℕ) (hden : q.den ∣ 10 ^ L) :
    parseFloatChars (pyFloatStr q) = some q := by
  rw [pyFloatStr]
  by_cases hq : q < 0
  · rw [if_pos hq]
    have h0 : 0 ≤ -q := by linarith
    have hden' : (-q).den ∣ 10 ^ L := by
      rw [Rat.den_neg_eq_den]
      exact hden
    obtain ⟨hparse, -⟩ := parsePos_renderPosFloat (-q) h0 L hden'
    have hcond : ('-' :: renderPosFloat (-q)).head? = some '-' := rfl
    rw [parseFloatChars, if_pos hcond]
    have htail : ('-' :: renderPosFloat (-q)).tail = renderPosFloat (-q) := rfl
    rw [htail, hparse]
    simp
  · rw [if_neg hq]
    have h0 : 0 ≤ q := le_of_not_lt hq
    obtain ⟨hparse, c, t, hct, hc⟩ := parsePos_renderPosFloat q h0 L hden
    rw [hct, parseFloatChars_of_digit_head c t hc, ← hct, hparse]

theorem parseFloatChars_props (cs : List Char) (q : ℚ) (h : parseFloatChars cs = some q) :
    ∃ L, q.den ∣ 10 ^ L := by
  rw [parseFloatChars] at h
  by_cases hh : cs.head? = some '-'
  · rw [if_pos hh] at h
    obtain ⟨q', hq', rfl⟩ := Option.map_eq_some'.mp h
    obtain ⟨-, L, hL⟩ := parsePos_props cs.tail q' hq'
    refine ⟨L, ?_⟩
    rw [Rat.den_neg_eq_den]
    exact hL
  · rw [if_neg hh] at h
    obtain ⟨-, L, hL⟩ := parsePos_props cs q h
    exact ⟨L, hL⟩

theorem pyFloatStr_of_parse (s : List Char) (q : ℚ) (h : parseFloatChars s = some q) :
    parseFloatChars (pyFloatStr q) = some q :=
  let ⟨L, hL⟩ := parseFloatChars_props s q h
  parseFloatChars_pyFloatStr q L hL

theorem parseRow_renderEntry (r : Row) (e : Entry) (h : parseRow r = some e) :
    parseRow (renderEntry e) = some e := by
  rw [parseRow] at h
  obtain ⟨q, hq, rfl⟩ := Option.map_eq_some'.mp h
  rw [parseRow, renderEntry]
  simp only [pyValStr]
  rw [pyFloatStr_of_parse r.cAmount q hq]
  rfl

theorem read_write_roundtrip : ∀ (rows : List Row) (es : List Entry),
    read_entries rows = some es → read_entries (write_entries es) = some es := by
  intro rows
  induction rows with
  | nil =>
    intro es h
    rw [read_entries] at h
    obtain rfl := (Option.some.inj h).symm
    rfl
  | cons r t ih =>
    intro es h
    rw [read_entries] at h
    rcases hr : parseRow r with _ | e
    · rw [hr] at h
      exact absurd h (by simp)
    · rw [hr] at h
      rcases ho : read_entries t with _ | es'
      · rw [ho] at h
        exact absurd h (by simp)
      · rw [ho] at h
        simp only [Option.map_some', Option.some.injEq] at h
        subst h
        have ih' := ih es' ho
        have hpr := parseRow_renderEntry r e hr
        simp only [write_entries, List.map_cons, read_entries, hpr]
        rw [show List.map renderEntry es' = write_entries es' from rfl, ih']
        rfl

/-- Claim C8: reading a well-formed backing file, rewriting it with
`write_entries`, and reading again yields an entry list identical to the
first — same order and same field values. -/
theorem c8_read_write_read (rows : List Row) (es : List Entry)
    (h : read_entries rows = some es) :
    read_entries (write_entries es) = some es :=
  read_write_roundtrip rows es h

/-- Witness for C8 on a one-row file with amount cell `"50.00"`. -/
theorem c8_read_write_read_witness :
    read_entries (write_entries [⟨"a".toList, "d".toList, kindExpense, PyVal.flt 50,
      "Food".toList, []⟩]) =
    some [⟨"a".toList, "d".toList, kindExpense, PyVal.flt 50, "Food".toList, []⟩] := by
  have h : read_entries [⟨"a".toList, "d".toList, kindExpense, "50.00".toList,
      "Food".toList, []⟩] =
      some [⟨"a".toList, "d".toList, kindExpense, PyVal.flt 50, "Food".toList, []⟩] := by
    simp +decide [read_entries, parseRow, parseFloatChars, parsePos, digitsVal, digitVal]
  exact c8_read_write_read _ _ h

theorem add_entry_ok_decomp (st : TrackerState) (cat amt typ note fid now : List Char)
    (st' : TrackerState) (e : Entry) (w : Bool)
    (h : add_entry st cat amt typ note fid now = (st', .ok e w)) :
    ∃ v, parseFloatChars (trimChars amt) = some v ∧
      e = ⟨fid, now, typ, PyVal.str (format2 v), trimChars cat, trimChars note⟩ ∧
      st' = ⟨st.entries ++ [e], st.budget, st.file ++ [renderEntry e]⟩ := by
  by_cases hca : ((trimChars cat).isEmpty || (trimChars amt).isEmpty) = true
  · rw [add_entry, if_pos hca] at h
    exact absurd (congrArg Prod.snd h) (by simp)
  · have hca' : ((trimChars cat).isEmpty || (trimChars amt).isEmpty) = false := by
      simpa using hca
    rcases hp : parseFloatChars (trimChars amt) with _ | v
    · rw [add_entry, if_neg (by simp [hca']), hp] at h
      exact absurd (congrArg Prod.snd h) (by simp)
    · rw [add_entry, if_neg (by simp [hca']), hp] at h
      have h2 := congrArg Prod.snd h
      simp only [AddResult.ok.injEq] at h2
      obtain ⟨he, -⟩ := h2
      have h1 := congrArg Prod.fst h
      simp only at h1
      exact ⟨v, rfl, he.symm, by rw [← h1, ← he]⟩

theorem twoDecimals_layout (pre fp : List Char) (hfp2 : fp.length = 2)
    (hfpd : ∀ c ∈ fp, isDigitC c = true) (hpre : ∀ c ∈ pre, c ≠ '.') :
    twoDecimals (pre ++ '.' :: fp) = true := by
  have hlen : (pre ++ '.' :: fp).length = pre.length + 3 := by
    simp [List.length_append, hfp2]
  have hsub : (pre ++ '.' :: fp).length - 3 = pre.length := by omega
  have hdrop : (pre ++ '.' :: fp).drop pre.length = '.' :: fp :=
    List.drop_left pre ('.' :: fp)
  have htake : (pre ++ '.' :: fp).take pre.length = pre :=
    List.take_left pre ('.' :: fp)
  simp only [twoDecimals, hsub, hdrop, htake]
  have h1 : ('.' :: fp).length = 3 := by simp [hfp2]
  have h2 : ('.' :: fp).drop 1 = fp := rfl
  have hdig : ∀ c ∈ fp, isDigitC c = true := hfpd
  simp [h1, h2, List.all_eq_true]
  exact ⟨hfpd, fun c hc => hpre c hc⟩

theorem twoDecimals_format2 (x : ℚ) : twoDecimals (format2 x) = true := by
  obtain ⟨m, hm⟩ : ∃ m, roundHalfEven (x * 100) = m := ⟨_, rfl⟩
  have hformat : format2 x =
      ((if x < 0 then ['-'] else []) ++
        (List.replicate (3 - (renderNat m.natAbs).length) '0' ++
          renderNat m.natAbs).take
          ((List.replicate (3 - (renderNat m.natAbs).length) '0' ++
            renderNat m.natAbs).length - 2)) ++
      '.' :: (List.replicate (3 - (renderNat m.natAbs).length) '0' ++
        renderNat m.natAbs).drop
        ((List.replicate (3 - (renderNat m.natAbs).length) '0' ++
          renderNat m.natAbs).length - 2) := by
    simp only [format2]
    rw [hm, List.append_assoc]
  set p : List Char := List.replicate (3 - (renderNat m.natAbs).length) '0' ++
    renderNat m.natAbs with hpdef
  have hpd : ∀ c ∈ p, isDigitC c = true := by
    intro c hc
    rw [hpdef] at hc
    rcases List.mem_append.mp hc with h | h
    · rw [List.eq_of_mem_replicate h]; decide
    · exact renderNat_digits m.natAbs c h
  have hplen : 3 ≤ p.length := by
    rw [hpdef, List.length_append, List.length_replicate]
    omega
  have hfp2 : (p.drop (p.length - 2)).length = 2 := by
    rw [List.length_drop]
    omega
  have hfpd : ∀ c ∈ p.drop (p.length - 2), isDigitC c = true :=
    fun c hc => hpd c (List.mem_of_mem_drop hc)
  have hpre : ∀ c ∈ (if x < 0 then ['-'] else []) ++ p.take (p.length - 2), c ≠ '.' := by
    intro c hc
    rcases List.mem_append.mp hc with h | h
    · by_cases hx : x < 0
      · rw [if_pos hx] at h
        have : c = '-' := by simpa using h
        rw [this]; decide
      · rw [if_neg hx] at h
        exact absurd h (List.not_mem_nil c)
    · exact (isDigitC_facts c (hpd c (List.mem_of_mem_take h))).2.1
  rw [hformat]
  exact twoDecimals_layout _ _ hfp2 hfpd hpre

/-- Claim C9 (amended): the row appended by a successful add renders the
amount with exactly two decimal digits, and a successful edit stores a
two-decimal amount string for the edited entry (so its row in the rewrite
has two decimals too); but the full rewrite renders amounts that were loaded
from the file (floats) via `str`, which need not produce two decimals — so
not every file state reachable through the operations keeps the two-decimal
shape. -/
theorem c9_two_decimals (st : TrackerState) (cat amt typ note fid now entry_id : List Char) :
    (∀ st' e w, add_entry st cat amt typ note fid now = (st', .ok e w) →
      st'.file = st.file ++ [renderEntry e] ∧
      twoDecimals (renderEntry e).cAmount = true) ∧
    (∀ st', save_changes st entry_id cat amt typ note = (st', .ok) →
      ∃ l1 e' l2, st'.entries = l1 ++ e' :: l2 ∧
        twoDecimals (renderEntry e').cAmount = true ∧
        st'.file = write_entries st'.entries) := by
  constructor
  · intro st' e w h
    obtain ⟨v, -, he, hst'⟩ := add_entry_ok_decomp st cat amt typ note fid now st' e w h
    constructor
    · rw [hst']
    · rw [he]
      exact twoDecimals_format2 v
  · intro st' h
    obtain ⟨v, l1, e, l2, -, -, -, -, hres, -, hfile⟩ :=
      save_changes_ok_decomp st entry_id cat amt typ note st' h
    exact ⟨l1, _, l2, hres, twoDecimals_format2 v, hfile⟩

/-- Witness for C9 at a concrete add: the appended row carries `format2`
output, which has exactly two decimals. -/
theorem c9_two_decimals_witness :
    ∃ st' e w, add_entry ⟨[], none, []⟩ ("Food".toList) ("5".toList) kindExpense []
        ("id1".toList) ("d".toList) = (st', .ok e w) ∧
      st'.file = [] ++ [renderEntry e] ∧ twoDecimals (renderEntry e).cAmount = true := by
  have hp : parseFloatChars ['5'] = some 5 := by
    simp +decide [parseFloatChars, parsePos, digitsVal, digitVal]
  have h : add_entry ⟨[], none, []⟩ ("Food".toList) ("5".toList) kindExpense []
      ("id1".toList) ("d".toList) =
      (⟨[⟨"id1".toList, "d".toList, kindExpense, PyVal.str (format2 5),
          trimChars ("Food".toList), []⟩], none,
        [renderEntry ⟨"id1".toList, "d".toList, kindExpense, PyVal.str (format2 5),
          trimChars ("Food".toList), []⟩]⟩,
       .ok ⟨"id1".toList, "d".toList, kindExpense, PyVal.str (format2 5),
          trimChars ("Food".toList), []⟩
         (budgetWarn none kindExpense [⟨"id1".toList, "d".toList, kindExpense,
           PyVal.str (format2 5), trimChars ("Food".toList), []⟩])) := by
    unfold add_entry
    simp +decide [hp, trimChars, isSpaceC]
  obtain ⟨hfile, hdec⟩ := (c9_two_decimals ⟨[], none, []⟩ ("Food".toList) ("5".toList)
    kindExpense [] ("id1".toList) ("d".toList) ("x".toList)).1 _ _ _ h
  exact ⟨_, _, _, h, hfile, hdec⟩

/-- Counterexample for C9 as stated: a file written by add (`"50.00"`) is
loaded (the amount becomes the float 50.0), and a delete that matches
nothing rewrites the file; the rewritten row renders the amount as `"50.0"`,
which does not have exactly two decimal digits. -/
theorem c9_counterexample :
    read_entries [⟨"a".toList, "d".toList, kindExpense, "50.00".toList,
        "Food".toList, []⟩] =
      some [⟨"a".toList, "d".toList, kindExpense, PyVal.flt 50, "Food".toList, []⟩] ∧
    (delete_entry ⟨[⟨"a".toList, "d".toList, kindExpense, PyVal.flt 50,
        "Food".toList, []⟩], none,
        [⟨"a".toList, "d".toList, kindExpense, "50.00".toList, "Food".toList, []⟩]⟩
      ("zzz".toList)).file =
      [⟨"a".toList, "d".toList, kindExpense, "50.0".toList, "Food".toList, []⟩] ∧
    twoDecimals ("50.0".toList) = false ∧
    twoDecimals ("50.00".toList) = true := by
  refine ⟨?_, ?_, by decide, by decide⟩
  · simp +decide [read_entries, parseRow, parseFloatChars, parsePos, digitsVal, digitVal]
  · have h1 : ((50 : ℚ)).den = 1 := rfl
    have h2 : (50 * 10 : ℚ) = 500 := by norm_num
    have h3 : ((500 : ℚ)).num = 500 := rfl
    simp +decide [delete_entry, write_entries, renderEntry, pyValStr, pyFloatStr,
      renderPosFloat, h1, h2, h3, renderNat, renderNatAux]

end Tracker
